import Mathlib

set_option maxRecDepth 100000

/-!
# Verification of the ResumeAI job-description extractor

Shallow embedding of `content.js` (`extractJobDescription` and its helper
`collapseWhitespace`) from the Chrome-Extensions repository, together with
proofs and refutations of the specification's claims about it.

Strings are modelled as `List Char` (JavaScript strings are sequences of
code units; none of the claims depend on surrogate behaviour).  The DOM is
modelled as a tree of elements carrying exactly the attributes the source
reads: tag name, `id`, `class`, `data-automation-id`, the computed
`display`/`visibility` style strings, `innerText` and `textContent`.

Each JavaScript regex replacement of `collapseWhitespace` is embedded by a
function with the same left-to-right, non-rescanning global-replace
semantics:
* `/\r\n/g → "\n"`  : one left-to-right pass, replaced text never rescanned;
* `/\t/g → " "`     : per-character map;
* `/ {2,}/g → " "`  : each maximal run of ≥ 2 spaces becomes one space,
  i.e. every maximal space run collapses to a single space;
* `/\n{3,}/g → "\n\n"` : each maximal run of ≥ 3 newlines becomes two,
  i.e. every maximal newline run collapses to at most two newlines;
* `.trim()`         : drop ECMAScript whitespace from both ends.
-/

/-- `str.replace(/\r\n/g, "\n")`: a single left-to-right pass; the
replacement `"\n"` is not rescanned, so in `"\r\r\n"` only the second
`"\r"` starts a match and the leading `"\r"` survives. -/
def replaceCRLF : List Char → List Char
  | [] => []
  | [c] => [c]
  | c1 :: c2 :: rest =>
    if c1 = '\r' ∧ c2 = '\n' then '\n' :: replaceCRLF rest
    else c1 :: replaceCRLF (c2 :: rest)

/-- `str.replace(/\t/g, " ")`. -/
def replaceTabs (l : List Char) : List Char :=
  l.map (fun c => if c = '\t' then ' ' else c)

/-- `str.replace(/ {2,}/g, " ")`: every maximal run of spaces becomes a
single space (runs of length 1 are untouched, longer runs collapse to 1,
which is the same thing).  Realised as a right fold that keeps a space
only when the already-processed tail does not start with a space. -/
def collapseSpaces (l : List Char) : List Char :=
  l.foldr (fun c acc => if c = ' ' ∧ acc.head? = some ' ' then acc else c :: acc) []

/-- `str.replace(/\n{3,}/g, "\n\n")`: every maximal run of ≥ 3 newlines
becomes exactly two newlines; shorter runs are untouched.  Realised as a
right fold that drops a newline when two newlines already follow. -/
def squashNewlines (l : List Char) : List Char :=
  l.foldr (fun c acc => if c = '\n' ∧ acc.take 2 = ['\n', '\n'] then acc else c :: acc) []

/-- The ECMAScript `TrimString` character class: WhiteSpace
(TAB, VT, FF, SP, NBSP, ZWNBSP and the Unicode space separators) together
with the LineTerminators (LF, CR, LS, PS). -/
def jsWhitespace (c : Char) : Bool :=
  c = ' ' || c = '\t' || c = '\n' || c = '\r' ||
  c.toNat = 0x0B || c.toNat = 0x0C || c.toNat = 0xA0 || c.toNat = 0xFEFF ||
  c.toNat = 0x1680 || (0x2000 ≤ c.toNat && c.toNat ≤ 0x200A) ||
  c.toNat = 0x2028 || c.toNat = 0x2029 || c.toNat = 0x202F ||
  c.toNat = 0x205F || c.toNat = 0x3000

/-- `str.trim()`: remove ECMAScript whitespace from both ends. -/
def jsTrim (l : List Char) : List Char :=
  List.rdropWhile jsWhitespace (List.dropWhile jsWhitespace l)

/-- `collapseWhitespace` from `content.js`, the chained replacements in
source order: CRLF → LF, tabs → spaces, collapse space runs, cap newline
runs at two, then trim. -/
def collapseWhitespace (l : List Char) : List Char :=
  jsTrim (squashNewlines (collapseSpaces (replaceTabs (replaceCRLF l))))

/-! ## The DOM model -/

/-- A DOM element: exactly the data `extractJobDescription` reads.
`tagName` is stored uppercase, as the DOM reports it for HTML documents. -/
inductive Elem : Type where
  | mk : (tagName : List Char) → (idAttr : List Char) → (className : List Char) →
      (dataAutomationId : Option (List Char)) → (display : List Char) →
      (visibility : List Char) → (innerText : List Char) → (textContent : List Char) →
      (children : List Elem) → Elem

def Elem.tagName : Elem → List Char
  | .mk t _ _ _ _ _ _ _ _ => t

def Elem.idAttr : Elem → List Char
  | .mk _ i _ _ _ _ _ _ _ => i

def Elem.className : Elem → List Char
  | .mk _ _ c _ _ _ _ _ _ => c

def Elem.dataAutomationId : Elem → Option (List Char)
  | .mk _ _ _ d _ _ _ _ _ => d

def Elem.display : Elem → List Char
  | .mk _ _ _ _ d _ _ _ _ => d

def Elem.visibility : Elem → List Char
  | .mk _ _ _ _ _ v _ _ _ => v

def Elem.innerText : Elem → List Char
  | .mk _ _ _ _ _ _ t _ _ => t

def Elem.textContent : Elem → List Char
  | .mk _ _ _ _ _ _ _ t _ => t

def Elem.children : Elem → List Elem
  | .mk _ _ _ _ _ _ _ _ ch => ch

mutual

/-- Pre-order (document-order) traversal of an element's subtree,
the element itself first.  This is the order `querySelector` /
`querySelectorAll` use. -/
def Elem.descendants : Elem → List Elem
  | .mk t i c d dis vis it tc ch => .mk t i c d dis vis it tc ch :: descendantsList ch

def descendantsList : List Elem → List Elem
  | [] => []
  | e :: es => Elem.descendants e ++ descendantsList es

end

/-- A document: the element tree root (for `querySelector`/`querySelectorAll`)
and `document.body` (read by the last-resort branch). -/
structure Document : Type where
  root : Elem
  body : Elem

/-- Document-order list of all elements of the document. -/
def Document.allElems (d : Document) : List Elem :=
  d.root.descendants

/-- The CSS selector shapes occurring in `KNOWN_SELECTORS`. -/
inductive Selector : Type where
  | cls (name : List Char)            -- `.name`
  | idSel (name : List Char)          -- `#name`
  | dataAutomation (val : List Char)  -- `[data-automation-id='val']`
  | clsContains (sub : List Char)     -- `[class*='sub']`
  | idContains (sub : List Char)      -- `[id*='sub']`
  | tag (name : List Char)            -- a type selector; `name` uppercase
deriving DecidableEq

/-- HTML ASCII whitespace, the separators of the `class` attribute. -/
def isAsciiWS (c : Char) : Bool :=
  c = ' ' || c = '\t' || c = '\n' || c.toNat = 0x0C || c = '\r'

/-- The whitespace-separated tokens of a `class` attribute value. -/
def classTokens (l : List Char) : List (List Char) :=
  List.splitOnP isAsciiWS l

/-- CSS matching for the selector shapes above.  `.c` tests membership of
`c` among the class tokens, `#i` tests the `id`, `[a*='s']` tests
substring containment on the raw attribute value, a type selector tests
the tag name. -/
def matchesSel (el : Elem) : Selector → Bool
  | .cls n => decide (n ∈ classTokens el.className)
  | .idSel n => decide (el.idAttr = n)
  | .dataAutomation v =>
    match el.dataAutomationId with
    | some w => decide (w = v)
    | none => false
  | .clsContains sub => decide (sub <:+: el.className)
  | .idContains sub => decide (sub <:+: el.idAttr)
  | .tag t => decide (el.tagName = t)

/-- `document.querySelector(s)`: the first element in document order that
matches `s`, if any. -/
def querySelector (d : Document) (s : Selector) : Option Elem :=
  d.allElems.find? (fun el => matchesSel el s)

/-- `el.innerText || el.textContent || ""`. -/
def rawText (el : Elem) : List Char :=
  if el.innerText = [] then el.textContent else el.innerText

/-! ## The extractor -/

/-- `KNOWN_SELECTORS` from `content.js`, in source order. -/
def KNOWN_SELECTORS : List Selector := [
  -- LinkedIn
  .cls ("jobs-description__content".toList),
  .cls ("jobs-box__html-content".toList),
  -- Indeed
  .idSel ("jobDescriptionText".toList),
  .cls ("jobsearch-jobDescriptionText".toList),
  -- Greenhouse
  .idSel ("content".toList),
  .cls ("job__description".toList),
  -- Lever
  .cls ("posting-description".toList),
  .cls ("section-wrapper".toList),
  -- Workday
  .dataAutomation ("jobPostingDescription".toList),
  -- Workable
  .cls ("job-description".toList),
  -- SmartRecruiters
  .cls ("job-sections".toList),
  -- Ashby
  .cls ("ashby-job-posting-brief-description".toList),
  -- Generic fallbacks
  .clsContains ("job-description".toList),
  .clsContains ("jobDescription".toList),
  .clsContains ("job_description".toList),
  .idContains ("job-description".toList),
  .idContains ("jobDescription".toList),
  .tag ("ARTICLE".toList),
  .tag ("MAIN".toList)]

/-- `MIN_LENGTH` from `content.js`. -/
def MIN_LENGTH : Nat := 200

/-- `BLOCK_TAGS` from `content.js`. -/
def BLOCK_TAGS : List (List Char) :=
  ["DIV".toList, "SECTION".toList, "ARTICLE".toList, "MAIN".toList,
   "P".toList, "UL".toList, "OL".toList, "TABLE".toList]

/-- `SKIP_TAGS` from `content.js`. -/
def SKIP_TAGS : List (List Char) :=
  ["SCRIPT".toList, "STYLE".toList, "NOSCRIPT".toList, "IFRAME".toList,
   "HEADER".toList, "FOOTER".toList, "NAV".toList, "ASIDE".toList, "FORM".toList]

/-- The first loop of `extractJobDescription`: try each selector in order,
return the normalized text of its `querySelector` hit when that text has
at least `MIN_LENGTH` characters, otherwise continue with the next
selector; `none` when the whole list is exhausted. -/
def trySelectors (d : Document) : List Selector → Option (List Char)
  | [] => none
  | s :: rest =>
    match querySelector d s with
    | none => trySelectors d rest
    | some el =>
      let text := collapseWhitespace (rawText el)
      if MIN_LENGTH ≤ text.length then some text else trySelectors d rest

/-- `document.querySelectorAll("div, section, article, main")` in document
order. -/
def heuristicCandidates (d : Document) : List Elem :=
  d.allElems.filter
    (fun el => decide (el.tagName ∈
      ["DIV".toList, "SECTION".toList, "ARTICLE".toList, "MAIN".toList]))

/-- The body of the heuristic `for` loop: skip invisible elements, skip
`SKIP_TAGS`, skip elements with more than 12 direct block-level children. -/
def candidateOk (el : Elem) : Bool :=
  !(decide (el.display = "none".toList)) &&
  !(decide (el.visibility = "hidden".toList)) &&
  !(decide (el.tagName ∈ SKIP_TAGS)) &&
  decide ((el.children.filter (fun c => decide (c.tagName ∈ BLOCK_TAGS))).length ≤ 12)

/-- The length of an element's normalized text, as the heuristic scores it. -/
def normLen (el : Elem) : Nat :=
  (collapseWhitespace (rawText el)).length

/-- One iteration of the heuristic loop: the accumulator is
`(bestElement, bestLength)`; a surviving candidate replaces it exactly
when its normalized text is strictly longer. -/
def scanStep (acc : Option Elem × Nat) (el : Elem) : Option Elem × Nat :=
  if candidateOk el then
    if acc.2 < normLen el then (some el, normLen el) else acc
  else acc

/-- The heuristic loop of `extractJobDescription` over all candidates,
starting from `(null, 0)`. -/
def heuristicBest (d : Document) : Option Elem × Nat :=
  (heuristicCandidates d).foldl scanStep (none, 0)

/-- The last-resort branch: `collapseWhitespace(document.body.innerText
|| "").slice(0, 8000)`. -/
def lastResort (d : Document) : List Char :=
  (collapseWhitespace d.body.innerText).take 8000

/-- `extractJobDescription` from `content.js`: targeted selectors first,
then the heuristic scan (whose winner is returned when `bestElement` is
set and `bestLength >= MIN_LENGTH`), then the last resort. -/
def extractJobDescription (d : Document) : List Char :=
  match trySelectors d KNOWN_SELECTORS with
  | some t => t
  | none =>
    match heuristicBest d with
    | (some el, bestLen) =>
      if MIN_LENGTH ≤ bestLen then collapseWhitespace (rawText el)
      else lastResort d
    | (none, _) => lastResort d

/-! ## Lemmas about the whitespace pipeline -/

theorem collapseSpaces_nil : collapseSpaces [] = [] := rfl

theorem collapseSpaces_cons (c : Char) (l : List Char) :
    collapseSpaces (c :: l) =
      if c = ' ' ∧ (collapseSpaces l).head? = some ' '
      then collapseSpaces l else c :: collapseSpaces l := rfl

theorem squashNewlines_nil : squashNewlines [] = [] := rfl

theorem squashNewlines_cons (c : Char) (l : List Char) :
    squashNewlines (c :: l) =
      if c = '\n' ∧ (squashNewlines l).take 2 = ['\n', '\n']
      then squashNewlines l else c :: squashNewlines l := rfl

theorem head?_of_take_two {l : List Char} {a b : Char} (h : l.take 2 = [a, b]) :
    l.head? = some a := by
  cases l with
  | nil => simp at h
  | cons x xs =>
    simp only [List.take_succ_cons, List.cons.injEq] at h
    simp [h.1]

theorem collapseSpaces_head (c : Char) (l : List Char) :
    (collapseSpaces (c :: l)).head? = some c := by
  rw [collapseSpaces_cons]
  split
  · next h => rw [h.2, h.1]
  · simp

theorem squashNewlines_head (c : Char) (l : List Char) :
    (squashNewlines (c :: l)).head? = some c := by
  rw [squashNewlines_cons]
  split
  · next h => rw [head?_of_take_two h.2, h.1]
  · simp

theorem mem_collapseSpaces {c : Char} {l : List Char} (h : c ∈ collapseSpaces l) :
    c ∈ l := by
  induction l with
  | nil => simp [collapseSpaces_nil] at h
  | cons a l ih =>
    rw [collapseSpaces_cons] at h
    split at h
    · exact List.mem_cons_of_mem a (ih h)
    · rcases List.mem_cons.mp h with h | h
      · exact h ▸ List.mem_cons_self a l
      · exact List.mem_cons_of_mem a (ih h)

theorem mem_squashNewlines {c : Char} {l : List Char} (h : c ∈ squashNewlines l) :
    c ∈ l := by
  induction l with
  | nil => simp [squashNewlines_nil] at h
  | cons a l ih =>
    rw [squashNewlines_cons] at h
    split at h
    · exact List.mem_cons_of_mem a (ih h)
    · rcases List.mem_cons.mp h with h | h
      · exact h ▸ List.mem_cons_self a l
      · exact List.mem_cons_of_mem a (ih h)

theorem jsTrim_within (l : List Char) : jsTrim l <:+: l :=
  List.IsInfix.trans
    ( List.IsPrefix.isInfix ( List.rdropWhile_prefix jsWhitespace _))
    ( List.IsSuffix.isInfix (List.dropWhile_suffix jsWhitespace))

theorem mem_jsTrim {c : Char} {l : List Char} (h : c ∈ jsTrim l) : c ∈ l :=
  List.Sublist.mem h (List.IsInfix.sublist (jsTrim_within l))

theorem not_tab_mem_replaceTabs (l : List Char) : '\t' ∉ replaceTabs l := by
  intro h
  rcases List.mem_map.mp h with ⟨a, _, ha⟩
  by_cases h' : a = '\t' <;> simp [h'] at ha

theorem head?_eq_of_pre {l t : List Char} {a : Char} (h : [a] <+: l ++ t → False)
    (hh : l.head? = some a) : False := by
  cases l with
  | nil => simp at hh
  | cons x xs =>
    simp only [List.head?_cons, Option.some.injEq] at hh
    exact h ⟨xs ++ t, by simp [hh]⟩

theorem head?_of_single_pre {l : List Char} {a : Char} (h : [a] <+: l) :
    l.head? = some a := by
  rcases h with ⟨t, ht⟩
  subst ht
  rfl

theorem take_two_of_pair_pre {l : List Char} {a b : Char} (h : [a, b] <+: l) :
    l.take 2 = [a, b] := by
  rcases h with ⟨t, ht⟩
  subst ht
  rfl

/-- The output of the space-collapsing pass never contains two adjacent
spaces. -/
theorem no_pair_collapseSpaces (l : List Char) : ¬ ([' ', ' '] <:+: collapseSpaces l) := by
  induction l with
  | nil => rw [collapseSpaces_nil]; simp
  | cons c l ih =>
    rw [collapseSpaces_cons]
    split
    · exact ih
    · next hcond =>
      intro hinf
      rcases List.infix_cons_iff.mp hinf with hpre | hinf'
      · rcases List.cons_prefix_cons.mp hpre with ⟨hc, htail⟩
        exact hcond ⟨hc.symm, head?_of_single_pre htail⟩
      · exact ih hinf'

/-- The newline-squashing pass does not create adjacent spaces. -/
theorem no_pair_squashNewlines {l : List Char} (h : ¬ ([' ', ' '] <:+: l)) :
    ¬ ([' ', ' '] <:+: squashNewlines l) := by
  induction l with
  | nil => rw [squashNewlines_nil]; simp
  | cons c l ih =>
    have h' : ¬ ([' ', ' '] <:+: l) := fun hi => h (List.infix_cons hi)
    rw [squashNewlines_cons]
    split
    · exact ih h'
    · intro hinf
      rcases List.infix_cons_iff.mp hinf with hpre | hinf'
      · rcases List.cons_prefix_cons.mp hpre with ⟨hc, htail⟩
        cases l with
        | nil =>
          rw [squashNewlines_nil] at htail
          simp at htail
        | cons x xs =>
          have hx : some x = some ' ' := by
            rw [← squashNewlines_head x xs]
            exact head?_of_single_pre htail
          have hx' : x = ' ' := by injection hx
          exact h ⟨[], xs, by rw [← hc, hx']; rfl⟩
      · exact ih h' hinf'

/-- The output of the newline-squashing pass never contains three adjacent
newlines. -/
theorem no_triple_squashNewlines (l : List Char) :
    ¬ (['\n', '\n', '\n'] <:+: squashNewlines l) := by
  induction l with
  | nil => rw [squashNewlines_nil]; simp
  | cons c l ih =>
    rw [squashNewlines_cons]
    split
    · exact ih
    · next hcond =>
      intro hinf
      rcases List.infix_cons_iff.mp hinf with hpre | hinf'
      · rcases List.cons_prefix_cons.mp hpre with ⟨hc, htail⟩
        exact hcond ⟨hc.symm, take_two_of_pair_pre htail⟩
      · exact ih hinf'

/-- "`l` carries no leading ECMAScript whitespace". -/
def NoLeadingWS (l : List Char) : Prop :=
  ∀ c : Char, l.head? = some c → jsWhitespace c = false

/-- "`l` carries no trailing ECMAScript whitespace". -/
def NoTrailingWS (l : List Char) : Prop :=
  ∀ c : Char, l.getLast? = some c → jsWhitespace c = false

theorem jsTrim_noLeadingWS (l : List Char) : NoLeadingWS (jsTrim l) := by
  intro c hc
  rcases List.rdropWhile_prefix jsWhitespace (List.dropWhile jsWhitespace l) with ⟨t, ht⟩
  have hc' : (List.rdropWhile jsWhitespace (List.dropWhile jsWhitespace l)).head? = some c := hc
  have hd : (List.dropWhile jsWhitespace l).head? = some c := by
    rw [← ht, List.head?_append, hc']
    rfl
  have h2 := List.head?_dropWhile_not jsWhitespace l
  rw [hd] at h2
  exact h2

theorem jsTrim_noTrailingWS (l : List Char) : NoTrailingWS (jsTrim l) := by
  intro c hc
  have hne : jsTrim l ≠ [] := by
    intro h
    rw [h] at hc
    simp at hc
  have hne' : List.rdropWhile jsWhitespace (List.dropWhile jsWhitespace l) ≠ [] := hne
  have hlast := List.rdropWhile_last_not jsWhitespace (List.dropWhile jsWhitespace l) hne'
  have hcl : (jsTrim l).getLast hne = c := by
    rw [List.getLast?_eq_getLast _ hne] at hc
    injection hc
  have heq : jsWhitespace
      ((List.rdropWhile jsWhitespace (List.dropWhile jsWhitespace l)).getLast hne') =
      jsWhitespace c := by
    rw [← hcl]
    rfl
  rw [heq] at hlast
  simpa using hlast

/-- C7 assembled for the normalizer: its output never contains a tab,
two adjacent spaces, or three adjacent newlines, and is trimmed. -/
theorem collapseWhitespace_no_tab (s : List Char) : '\t' ∉ collapseWhitespace s := by
  intro h
  exact not_tab_mem_replaceTabs (replaceCRLF s)
    (mem_collapseSpaces (mem_squashNewlines (mem_jsTrim h)))

theorem collapseWhitespace_no_pair (s : List Char) :
    ¬ ([' ', ' '] <:+: collapseWhitespace s) := fun h =>
  no_pair_squashNewlines (no_pair_collapseSpaces (replaceTabs (replaceCRLF s)))
    (List.IsInfix.trans h (jsTrim_within _))

theorem collapseWhitespace_no_triple (s : List Char) :
    ¬ (['\n', '\n', '\n'] <:+: collapseWhitespace s) := fun h =>
  no_triple_squashNewlines (collapseSpaces (replaceTabs (replaceCRLF s)))
    (List.IsInfix.trans h (jsTrim_within _))

theorem collapseWhitespace_noLeadingWS (s : List Char) :
    NoLeadingWS (collapseWhitespace s) :=
  jsTrim_noLeadingWS _

theorem collapseWhitespace_noTrailingWS (s : List Char) :
    NoTrailingWS (collapseWhitespace s) :=
  jsTrim_noTrailingWS _

/-! ## `collapseWhitespace` is the identity on already-normalized text -/

theorem replaceCRLF_of_no_cr : ∀ l : List Char, '\r' ∉ l → replaceCRLF l = l
  | [], _ => rfl
  | [_], _ => rfl
  | c1 :: c2 :: rest, h => by
    have h1 : c1 ≠ '\r' := fun e => h (e ▸ List.mem_cons_self c1 (c2 :: rest))
    have h2 : '\r' ∉ c2 :: rest := fun hm => h (List.mem_cons_of_mem c1 hm)
    rw [replaceCRLF, if_neg (fun hp => h1 hp.1), replaceCRLF_of_no_cr (c2 :: rest) h2]

theorem replaceTabs_of_no_tab {l : List Char} (h : '\t' ∉ l) : replaceTabs l = l := by
  rw [replaceTabs]
  have hcong : ∀ a ∈ l, (if a = '\t' then ' ' else a) = id a := by
    intro a ha
    have hne : a ≠ '\t' := fun e => h (e ▸ ha)
    simp [hne]
  rw [List.map_congr_left hcong, List.map_id]

theorem collapseSpaces_of_no_pair {l : List Char} (h : ¬ ([' ', ' '] <:+: l)) :
    collapseSpaces l = l := by
  induction l with
  | nil => rfl
  | cons c l ih =>
    have h' : ¬ ([' ', ' '] <:+: l) := fun hi => h (List.infix_cons hi)
    rw [collapseSpaces_cons, ih h', if_neg]
    intro hcond
    rcases hcond with ⟨hc, hh⟩
    cases l with
    | nil => simp at hh
    | cons x xs =>
      simp only [List.head?_cons, Option.some.injEq] at hh
      exact h ⟨[], xs, by simp [hc, hh]⟩

theorem squashNewlines_of_no_triple {l : List Char} (h : ¬ (['\n', '\n', '\n'] <:+: l)) :
    squashNewlines l = l := by
  induction l with
  | nil => rfl
  | cons c l ih =>
    have h' : ¬ (['\n', '\n', '\n'] <:+: l) := fun hi => h (List.infix_cons hi)
    rw [squashNewlines_cons, ih h', if_neg]
    intro hcond
    rcases hcond with ⟨hc, hh⟩
    cases l with
    | nil => simp at hh
    | cons x xs =>
      cases xs with
      | nil => simp at hh
      | cons y ys =>
        simp only [List.take_succ_cons, List.take_zero, List.cons.injEq, and_true] at hh
        exact h ⟨[], ys, by simp [hc, hh.1, hh.2]⟩

theorem jsTrim_of_trimmed {l : List Char} (h1 : NoLeadingWS l) (h2 : NoTrailingWS l) :
    jsTrim l = l := by
  rw [jsTrim]
  have hd : List.dropWhile jsWhitespace l = l := by
    cases l with
    | nil => rfl
    | cons x xs =>
      apply List.dropWhile_cons_of_neg
      simp [h1 x rfl]
  rw [hd]
  apply List.rdropWhile_eq_self_iff.mpr
  intro hl
  rw [h2 (l.getLast hl) (List.getLast?_eq_getLast l hl)]
  simp

/-- On text that is already fully normalized (no CR, no tab, no adjacent
spaces, no triple newline, trimmed) `collapseWhitespace` is the identity. -/
theorem collapseWhitespace_of_normalized {l : List Char}
    (hcr : '\r' ∉ l) (htab : '\t' ∉ l)
    (hsp : ¬ ([' ', ' '] <:+: l)) (hnl : ¬ (['\n', '\n', '\n'] <:+: l))
    (hlead : NoLeadingWS l) (htrail : NoTrailingWS l) :
    collapseWhitespace l = l := by
  rw [collapseWhitespace, replaceCRLF_of_no_cr l hcr, replaceTabs_of_no_tab htab,
    collapseSpaces_of_no_pair hsp, squashNewlines_of_no_triple hnl,
    jsTrim_of_trimmed hlead htrail]

/-! ## Selector-tier lemmas -/

/-- A selector "qualifies": its `querySelector` hit (the document's FIRST
matching element) has normalized text of at least `MIN_LENGTH` characters. -/
def selQualifies (d : Document) (s : Selector) : Bool :=
  match querySelector d s with
  | some el => decide (MIN_LENGTH ≤ normLen el)
  | none => false

theorem trySelectors_cons_none {d : Document} {s : Selector}
    (hq : querySelector d s = none) (rest : List Selector) :
    trySelectors d (s :: rest) = trySelectors d rest := by
  rw [trySelectors, hq]

theorem trySelectors_cons_some {d : Document} {s : Selector} {el : Elem}
    (hq : querySelector d s = some el) (rest : List Selector) :
    trySelectors d (s :: rest) =
      if MIN_LENGTH ≤ normLen el
      then some (collapseWhitespace (rawText el)) else trySelectors d rest := by
  rw [trySelectors, hq]
  rfl

theorem trySelectors_eq_none {d : Document} :
    ∀ {l : List Selector}, (∀ s ∈ l, selQualifies d s = false) →
      trySelectors d l = none := by
  intro l
  induction l with
  | nil => intro _; rfl
  | cons s rest ih =>
    intro h
    have hs := h s (List.mem_cons_self s rest)
    have hrest := fun s' hs' => h s' (List.mem_cons_of_mem s hs')
    cases hq : querySelector d s with
    | none => rw [trySelectors_cons_none hq]; exact ih hrest
    | some el =>
      rw [selQualifies, hq] at hs
      simp only [decide_eq_false_iff_not] at hs
      rw [trySelectors_cons_some hq, if_neg hs]
      exact ih hrest

theorem trySelectors_append {d : Document} {S₁ : List Selector}
    (h : ∀ s ∈ S₁, selQualifies d s = false) (S₂ : List Selector) :
    trySelectors d (S₁ ++ S₂) = trySelectors d S₂ := by
  induction S₁ with
  | nil => rfl
  | cons s rest ih =>
    have hs := h s (List.mem_cons_self s rest)
    have hrest := fun s' hs' => h s' (List.mem_cons_of_mem s hs')
    rw [List.cons_append]
    cases hq : querySelector d s with
    | none => rw [trySelectors_cons_none hq]; exact ih hrest
    | some el =>
      rw [selQualifies, hq] at hs
      simp only [decide_eq_false_iff_not] at hs
      rw [trySelectors_cons_some hq, if_neg hs]
      exact ih hrest

theorem trySelectors_cons_hit {d : Document} {s : Selector} {el : Elem}
    (hq : querySelector d s = some el) (hlen : MIN_LENGTH ≤ normLen el)
    (rest : List Selector) :
    trySelectors d (s :: rest) = some (collapseWhitespace (rawText el)) := by
  rw [trySelectors_cons_some hq]
  exact if_pos hlen

theorem trySelectors_some_shape {d : Document} :
    ∀ {l : List Selector} {t : List Char}, trySelectors d l = some t →
      ∃ el : Elem, t = collapseWhitespace (rawText el) ∧ MIN_LENGTH ≤ t.length := by
  intro l
  induction l with
  | nil => intro t h; exact absurd h (by rw [trySelectors]; simp)
  | cons s rest ih =>
    intro t h
    cases hq : querySelector d s with
    | none => rw [trySelectors_cons_none hq] at h; exact ih h
    | some el =>
      rw [trySelectors_cons_some hq] at h
      by_cases hlen : MIN_LENGTH ≤ normLen el
      · rw [if_pos hlen] at h
        injection h with h
        exact ⟨el, h.symm, h ▸ hlen⟩
      · rw [if_neg hlen] at h
        exact ih h

/-! ## Heuristic-tier lemmas -/

/-- `scanStep` with the `candidateOk` test already discharged. -/
def scanStep' (acc : Option Elem × Nat) (el : Elem) : Option Elem × Nat :=
  if acc.2 < normLen el then (some el, normLen el) else acc

theorem foldl_scanStep_eq_filter :
    ∀ (L : List Elem) (acc : Option Elem × Nat),
      L.foldl scanStep acc = (L.filter candidateOk).foldl scanStep' acc := by
  intro L
  induction L with
  | nil => intro acc; rfl
  | cons el L ih =>
    intro acc
    by_cases hok : candidateOk el
    · rw [List.foldl_cons, List.filter_cons_of_pos hok, List.foldl_cons, ih]
      have : scanStep acc el = scanStep' acc el := by rw [scanStep, if_pos hok]; rfl
      rw [this]
    · rw [List.foldl_cons, List.filter_cons_of_neg hok, ih]
      have : scanStep acc el = acc := by rw [scanStep, if_neg hok]
      rw [this]

theorem foldl_scanStep'_lt {n : Nat} :
    ∀ {L : List Elem} {acc : Option Elem × Nat}, acc.2 < n →
      (∀ e ∈ L, normLen e < n) → (L.foldl scanStep' acc).2 < n := by
  intro L
  induction L with
  | nil => intro acc h _; exact h
  | cons el L ih =>
    intro acc hacc hL
    rw [List.foldl_cons]
    apply ih _ (fun e he => hL e (List.mem_cons_of_mem el he))
    rw [scanStep']
    split
    · exact hL el (List.mem_cons_self el L)
    · exact hacc

theorem foldl_scanStep'_keep :
    ∀ {L : List Elem} {acc : Option Elem × Nat},
      (∀ e ∈ L, normLen e ≤ acc.2) → L.foldl scanStep' acc = acc := by
  intro L
  induction L with
  | nil => intro acc _; rfl
  | cons el L ih =>
    intro acc hL
    rw [List.foldl_cons]
    have hstep : scanStep' acc el = acc := by
      rw [scanStep', if_neg]
      exact Nat.not_lt.mpr (hL el (List.mem_cons_self el L))
    rw [hstep]
    exact ih (fun e he => hL e (List.mem_cons_of_mem el he))

theorem foldl_scanStep'_inv :
    ∀ {L : List Elem} {acc : Option Elem × Nat},
      (∀ x, acc.1 = some x → acc.2 = normLen x) →
      ∀ x, (L.foldl scanStep' acc).1 = some x → (L.foldl scanStep' acc).2 = normLen x := by
  intro L
  induction L with
  | nil => intro acc h; exact h
  | cons el L ih =>
    intro acc hacc
    rw [List.foldl_cons]
    apply ih
    intro x hx
    rw [scanStep'] at hx ⊢
    split at hx
    · next hlt => rw [if_pos hlt]; injection hx with hx; rw [← hx]
    · next hlt => rw [if_neg hlt]; exact hacc x hx

/-- The heuristic loop selects the first element of maximal normalized
length among the surviving candidates. -/
theorem heuristicBest_spec {d : Document} {L₁ L₂ : List Elem} {el : Elem}
    (hd : (heuristicCandidates d).filter candidateOk = L₁ ++ el :: L₂)
    (h1 : ∀ e ∈ L₁, normLen e < normLen el)
    (h2 : ∀ e ∈ L₂, normLen e ≤ normLen el)
    (hpos : 0 < normLen el) :
    heuristicBest d = (some el, normLen el) := by
  rw [heuristicBest, foldl_scanStep_eq_filter, hd, List.foldl_append, List.foldl_cons]
  have hacc : ((L₁.foldl scanStep' (none, 0)).2) < normLen el :=
    foldl_scanStep'_lt hpos h1
  have hstep : scanStep' (L₁.foldl scanStep' (none, 0)) el = (some el, normLen el) := by
    rw [scanStep', if_pos hacc]
  rw [hstep]
  exact foldl_scanStep'_keep (by intro e he; exact h2 e he)

/-! ## Branch lemmas for `extractJobDescription` -/

theorem extract_of_selectors {d : Document} {t : List Char}
    (h : trySelectors d KNOWN_SELECTORS = some t) :
    extractJobDescription d = t := by
  rw [extractJobDescription, h]

theorem extract_of_heuristic {d : Document} {el : Elem} {n : Nat}
    (hsel : trySelectors d KNOWN_SELECTORS = none)
    (hbest : heuristicBest d = (some el, n)) (hlen : MIN_LENGTH ≤ n) :
    extractJobDescription d = collapseWhitespace (rawText el) := by
  rw [extractJobDescription, hsel, hbest]
  exact if_pos hlen

theorem extract_of_lastResort {d : Document}
    (hsel : trySelectors d KNOWN_SELECTORS = none)
    (hlen : (heuristicBest d).2 < MIN_LENGTH) :
    extractJobDescription d = lastResort d := by
  rw [extractJobDescription, hsel]
  cases hbest : heuristicBest d with
  | mk fst snd =>
    cases fst with
    | none => rfl
    | some el =>
      rw [hbest] at hlen
      exact if_neg (Nat.not_le.mpr hlen)

theorem heuristicBest_snd_lt {d : Document}
    (h : ∀ e ∈ heuristicCandidates d, candidateOk e = true → normLen e < MIN_LENGTH) :
    (heuristicBest d).2 < MIN_LENGTH := by
  rw [heuristicBest, foldl_scanStep_eq_filter]
  apply foldl_scanStep'_lt
  · exact Nat.zero_lt_succ _
  · intro e he
    rw [List.mem_filter] at he
    exact h e he.1 he.2

theorem heuristicBest_snd_eq {d : Document} {el : Elem} {n : Nat}
    (h : heuristicBest d = (some el, n)) : n = normLen el := by
  have := @foldl_scanStep'_inv ((heuristicCandidates d).filter candidateOk)
    ((none : Option Elem), 0) (by intro x hx; exact absurd hx (by simp)) el
  rw [← foldl_scanStep_eq_filter] at this
  rw [heuristicBest] at h
  rw [h] at this
  exact this rfl

theorem extract_of_lastResort_none {d : Document}
    (hsel : trySelectors d KNOWN_SELECTORS = none)
    (hbest : (heuristicBest d).1 = none) :
    extractJobDescription d = lastResort d := by
  rw [extractJobDescription, hsel]
  cases hb : heuristicBest d with
  | mk fst snd =>
    rw [hb] at hbest
    cases fst with
    | none => rfl
    | some el => exact absurd hbest (by simp)

/-! ## CR handling -/

/-- "Every carriage return of `l` is immediately followed by a line feed"
(this also rules out two adjacent CRs and a trailing CR). -/
def crImpliesLf : List Char → Bool
  | [] => true
  | [c] => decide (c ≠ '\r')
  | c1 :: c2 :: rest =>
    (if c1 = '\r' then decide (c2 = '\n') else true) && crImpliesLf (c2 :: rest)

theorem crImpliesLf_tail {c : Char} {l : List Char} (h : crImpliesLf (c :: l) = true) :
    crImpliesLf l = true := by
  cases l with
  | nil => rfl
  | cons c2 rest =>
    rw [crImpliesLf, Bool.and_eq_true] at h
    exact h.2

theorem replaceCRLF_no_cr : ∀ l : List Char, crImpliesLf l = true → '\r' ∉ replaceCRLF l
  | [], _ => by rw [replaceCRLF]; simp
  | [c], h => by
    rw [crImpliesLf] at h
    rw [replaceCRLF]
    simp only [List.mem_singleton]
    intro he
    rw [← he] at h
    simp at h
  | c1 :: c2 :: rest, h => by
    rw [crImpliesLf, Bool.and_eq_true] at h
    obtain ⟨h1, h2⟩ := h
    rw [replaceCRLF]
    split
    · intro hm
      rcases List.mem_cons.mp hm with he | hm'
      · exact absurd he (by decide)
      · exact replaceCRLF_no_cr rest (crImpliesLf_tail h2) hm'
    · next hp =>
      intro hm
      rcases List.mem_cons.mp hm with he | hm'
      · rw [← he] at h1
        rw [if_pos rfl] at h1
        simp only [decide_eq_true_eq] at h1
        exact hp ⟨he.symm ▸ rfl, h1⟩
      · exact replaceCRLF_no_cr (c2 :: rest) h2 hm'

theorem mem_replaceTabs_of_ne {c : Char} {l : List Char} (hc : c ≠ ' ')
    (h : c ∈ replaceTabs l) : c ∈ l := by
  rcases List.mem_map.mp h with ⟨a, ha, hfa⟩
  by_cases h' : a = '\t'
  · rw [h', if_pos rfl] at hfa
    exact absurd hfa.symm hc
  · rw [if_neg h'] at hfa
    exact hfa ▸ ha

/-! ## Claim theorems -/

/-- C7: for every input string, the output of `collapseWhitespace` contains
no tab character, no two adjacent space characters, no run of three (or
more) adjacent newline characters, and no leading or trailing whitespace. -/
theorem collapseWhitespace_normalized (s : List Char) :
    '\t' ∉ collapseWhitespace s ∧
    ¬ ([' ', ' '] <:+: collapseWhitespace s) ∧
    ¬ (['\n', '\n', '\n'] <:+: collapseWhitespace s) ∧
    NoLeadingWS (collapseWhitespace s) ∧ NoTrailingWS (collapseWhitespace s) :=
  ⟨collapseWhitespace_no_tab s, collapseWhitespace_no_pair s,
   collapseWhitespace_no_triple s, collapseWhitespace_noLeadingWS s,
   collapseWhitespace_noTrailingWS s⟩

/-- C5: `collapseWhitespace` is NOT idempotent, contradicting the
specification.  On `"a\r\r\nb"` one application yields `"a\r\nb"` (the
CRLF replacement does not rescan, so the leading CR survives and is now
followed by the substituted LF), and a second application yields
`"a\nb"`. -/
theorem collapseWhitespace_not_idempotent :
    collapseWhitespace (collapseWhitespace ("a\r\r\nb".toList)) ≠
      collapseWhitespace ("a\r\r\nb".toList) ∧
    collapseWhitespace ("a\r\r\nb".toList) = "a\r\nb".toList ∧
    collapseWhitespace (collapseWhitespace ("a\r\r\nb".toList)) = "a\nb".toList := by
  refine ⟨?_, by decide, by decide⟩
  decide

/-- C8 counterexample: a lone carriage return survives
`collapseWhitespace`, so the output is not free of CR characters. -/
theorem collapseWhitespace_lone_cr_cex :
    '\r' ∈ collapseWhitespace ("a\rb".toList) := by decide

/-- C8 amended: when every carriage return of the input is immediately
followed by a line feed (pure CRLF line endings, no lone or doubled CR),
the output of `collapseWhitespace` contains no carriage return. -/
theorem collapseWhitespace_no_cr_of_crlf_only (s : List Char)
    (h : crImpliesLf s = true) : '\r' ∉ collapseWhitespace s := by
  intro hm
  have h1 : '\r' ∈ replaceTabs (replaceCRLF s) :=
    mem_collapseSpaces (mem_squashNewlines (mem_jsTrim hm))
  have h2 : '\r' ∈ replaceCRLF s := mem_replaceTabs_of_ne (by decide) h1
  exact replaceCRLF_no_cr s h h2

theorem collapseWhitespace_no_cr_of_crlf_only_witness :
    crImpliesLf ("a\r\nb".toList) = true ∧ '\r' ∉ collapseWhitespace ("a\r\nb".toList) :=
  ⟨by decide, collapseWhitespace_no_cr_of_crlf_only ("a\r\nb".toList) (by decide)⟩

/-- C1: when the selectors preceding `s` in `KNOWN_SELECTORS` do not
qualify and `s`'s `querySelector` hit has normalized text of at least
`MIN_LENGTH` characters, the extractor returns exactly that hit's
normalized text — first qualifying selector in priority order wins,
regardless of anything later (longer selector hits or heuristic
candidates never enter into it). -/
theorem extract_selector_priority (d : Document) (S₁ : List Selector) (s : Selector)
    (S₂ : List Selector) (el : Elem)
    (hlist : KNOWN_SELECTORS = S₁ ++ s :: S₂)
    (hprev : ∀ s' ∈ S₁, selQualifies d s' = false)
    (hq : querySelector d s = some el)
    (hlen : MIN_LENGTH ≤ normLen el) :
    extractJobDescription d = collapseWhitespace (rawText el) := by
  apply extract_of_selectors
  rw [hlist, trySelectors_append hprev, trySelectors_cons_hit hq hlen]

/-- Witness document for C1: a LinkedIn-style container with 200
characters of text, and a later, longer element matched by a later
selector (`article`, 300 characters) that is ignored. -/
def elC1 : Elem :=
  .mk ("DIV".toList) [] ("jobs-description__content".toList) none [] []
    (List.replicate 200 'a') [] []

def elC1long : Elem :=
  .mk ("ARTICLE".toList) [] [] none [] [] (List.replicate 300 'b') [] []

def docC1 : Document :=
  ⟨.mk ("HTML".toList) [] [] none [] [] [] [] [elC1, elC1long], elC1⟩

theorem extract_selector_priority_witness :
    MIN_LENGTH ≤ normLen elC1long ∧
    extractJobDescription docC1 = collapseWhitespace (rawText elC1) :=
  ⟨by decide,
   extract_selector_priority docC1 [] (.cls ("jobs-description__content".toList))
     (KNOWN_SELECTORS.drop 1) elC1 rfl (by simp) rfl (by decide)⟩

/-- C9: the targeted-selector tier never tests visibility.  An element
hit by the first qualifying selector is returned even when its computed
style is `display: none` or `visibility: hidden`; the same element would
be rejected by the heuristic tier's visibility check (`candidateOk`),
which is the only place that check exists. -/
theorem extract_selector_ignores_visibility (d : Document) (S₁ : List Selector)
    (s : Selector) (S₂ : List Selector) (el : Elem)
    (hlist : KNOWN_SELECTORS = S₁ ++ s :: S₂)
    (hprev : ∀ s' ∈ S₁, selQualifies d s' = false)
    (hq : querySelector d s = some el)
    (hlen : MIN_LENGTH ≤ normLen el)
    (hinvis : el.display = "none".toList ∨ el.visibility = "hidden".toList) :
    candidateOk el = false ∧
    extractJobDescription d = collapseWhitespace (rawText el) := by
  constructor
  · rw [candidateOk]
    rcases hinvis with h | h
    · rw [h]
      simp
    · rw [h]
      simp
  · apply extract_of_selectors
    rw [hlist, trySelectors_append hprev, trySelectors_cons_hit hq hlen]

/-- Witness document for C9: the LinkedIn container is `display:none`
yet still returned by the selector tier. -/
def elC9 : Elem :=
  .mk ("DIV".toList) [] ("jobs-description__content".toList) none
    ("none".toList) [] (List.replicate 200 'a') [] []

def docC9 : Document :=
  ⟨.mk ("HTML".toList) [] [] none [] [] [] [] [elC9], elC9⟩

theorem extract_selector_ignores_visibility_witness :
    candidateOk elC9 = false ∧
    extractJobDescription docC9 = collapseWhitespace (rawText elC9) :=
  extract_selector_ignores_visibility docC9 []
    (.cls ("jobs-description__content".toList)) (KNOWN_SELECTORS.drop 1) elC9
    rfl (by simp) rfl (by decide) (Or.inl rfl)

/-- C10: the selector tier examines only the document's FIRST element
matching each selector.  If that first match is too short, the selector
contributes nothing — `trySelectors` proceeds exactly as if the selector
were absent — even when a later element matches the same selector with
qualifying text (`el'`, unused below except as evidence it exists). -/
theorem selector_first_match_only (d : Document) (s : Selector) (rest : List Selector)
    (P₁ P₂ : List Elem) (el el' : Elem)
    (hdecomp : d.allElems = P₁ ++ el :: P₂)
    (hP₁ : ∀ e ∈ P₁, matchesSel e s = false)
    (hmatch : matchesSel el s = true)
    (hshort : normLen el < MIN_LENGTH)
    (_hel' : el' ∈ P₂) (_hmatch' : matchesSel el' s = true)
    (_hlong : MIN_LENGTH ≤ normLen el') :
    querySelector d s = some el ∧
    trySelectors d (s :: rest) = trySelectors d rest := by
  have hq : querySelector d s = some el := by
    rw [querySelector, hdecomp, List.find?_append]
    have h1 : P₁.find? (fun e => matchesSel e s) = none :=
      List.find?_eq_none.mpr (fun x hx => by simp [hP₁ x hx])
    rw [h1, Option.none_or]
    exact List.find?_cons_of_pos _ hmatch
  exact ⟨hq, by rw [trySelectors_cons_some hq, if_neg (Nat.not_le.mpr hshort)]⟩

/-- Witness document for C10: two `.job-sections` elements; the first is
5 characters, the second 200, and the selector still contributes
nothing. -/
def elC10a : Elem :=
  .mk ("DIV".toList) [] ("job-sections".toList) none [] [] ("short".toList) [] []

def elC10b : Elem :=
  .mk ("DIV".toList) [] ("job-sections".toList) none [] []
    (List.replicate 200 'b') [] []

def rootC10 : Elem := .mk ("HTML".toList) [] [] none [] [] [] [] [elC10a, elC10b]

def docC10 : Document := ⟨rootC10, rootC10⟩

theorem selector_first_match_only_witness :
    querySelector docC10 (.cls ("job-sections".toList)) = some elC10a ∧
    trySelectors docC10 [.cls ("job-sections".toList)] = trySelectors docC10 [] :=
  selector_first_match_only docC10 (.cls ("job-sections".toList)) []
    [rootC10] [elC10b] elC10a elC10b rfl
    (by intro e he; rw [List.mem_singleton] at he; subst he; decide)
    (by decide) (by decide) (List.mem_singleton.mpr rfl) (by decide) (by decide)

/-- C2: when no targeted selector qualifies and the surviving heuristic
candidates (document order, `candidateOk` filter applied) decompose as
`L₁ ++ el :: L₂` with every earlier candidate strictly shorter and every
later candidate no longer than `el`, and `el` reaches `MIN_LENGTH`, the
extractor returns `el`'s normalized text: the single longest candidate
wins, and on an exact tie the first-encountered one (`L₂` elements may
equal `el`'s length and still lose). -/
theorem extract_heuristic_longest (d : Document) (L₁ L₂ : List Elem) (el : Elem)
    (hsel : ∀ s ∈ KNOWN_SELECTORS, selQualifies d s = false)
    (hdecomp : (heuristicCandidates d).filter candidateOk = L₁ ++ el :: L₂)
    (hbefore : ∀ e ∈ L₁, normLen e < normLen el)
    (hafter : ∀ e ∈ L₂, normLen e ≤ normLen el)
    (hlen : MIN_LENGTH ≤ normLen el) :
    extractJobDescription d = collapseWhitespace (rawText el) := by
  have hbest := heuristicBest_spec hdecomp hbefore hafter
    (Nat.lt_of_lt_of_le (by decide) hlen)
  exact extract_of_heuristic (trySelectors_eq_none hsel) hbest hlen

/-- Witness document for C2: no selector matches; two visible `div`
candidates of 250 characters each — an exact tie — and the first one in
document order wins. -/
def elC2a : Elem :=
  .mk ("DIV".toList) [] [] none [] [] (List.replicate 250 'a') [] []

def elC2b : Elem :=
  .mk ("DIV".toList) [] [] none [] [] (List.replicate 250 'c') [] []

def rootC2 : Elem := .mk ("HTML".toList) [] [] none [] [] [] [] [elC2a, elC2b]

def docC2 : Document := ⟨rootC2, rootC2⟩

theorem extract_heuristic_longest_witness :
    normLen elC2a = normLen elC2b ∧
    extractJobDescription docC2 = collapseWhitespace (rawText elC2a) :=
  ⟨by decide,
   extract_heuristic_longest docC2 [] [elC2b] elC2a (by decide) rfl
     (by intro e he; simp at he)
     (by intro e he; rw [List.mem_singleton] at he; subst he; decide)
     (by decide)⟩

/-- C3: when no targeted selector qualifies and no surviving heuristic
candidate reaches `MIN_LENGTH`, the extractor returns the body's
normalized text truncated to 8000 characters; in this path the result
never exceeds 8000 characters, and when the normalized body text is at
most 8000 characters it is returned unchanged. -/
theorem extract_last_resort_cap (d : Document)
    (hsel : ∀ s ∈ KNOWN_SELECTORS, selQualifies d s = false)
    (hheur : ∀ e ∈ heuristicCandidates d, candidateOk e = true →
      normLen e < MIN_LENGTH) :
    extractJobDescription d = (collapseWhitespace d.body.innerText).take 8000 ∧
    (extractJobDescription d).length ≤ 8000 ∧
    ((collapseWhitespace d.body.innerText).length ≤ 8000 →
      extractJobDescription d = collapseWhitespace d.body.innerText) := by
  have hx : extractJobDescription d = lastResort d :=
    extract_of_lastResort (trySelectors_eq_none hsel) (heuristicBest_snd_lt hheur)
  refine ⟨hx, ?_, ?_⟩
  · rw [hx, lastResort, List.length_take]
    exact Nat.min_le_left _ _
  · intro hle
    rw [hx, lastResort, List.take_of_length_le hle]

/-- Witness document for C3: a document whose only prose is a short
paragraph in the body; every tier falls through and the body text is
returned unchanged (it is far below the cap). -/
def rootC3 : Elem := .mk ("HTML".toList) [] [] none [] [] [] [] []

def bodyC3 : Elem :=
  .mk ("BODY".toList) [] [] none [] [] ("We need a builder.".toList) [] []

def docC3 : Document := ⟨rootC3, bodyC3⟩

theorem extract_last_resort_cap_witness :
    extractJobDescription docC3 = (collapseWhitespace docC3.body.innerText).take 8000 ∧
    (extractJobDescription docC3).length ≤ 8000 ∧
    ((collapseWhitespace docC3.body.innerText).length ≤ 8000 →
      extractJobDescription docC3 = collapseWhitespace docC3.body.innerText) :=
  extract_last_resort_cap docC3 (by decide) (by decide)

/-- C4: the extractor is a total function (it is a Lean `def` into plain
strings: every tier either returns or falls through, and the last resort
always returns), and its result is empty only when the document has no
text anywhere — here read off the last-resort source: the body's
normalized visible text is empty. -/
theorem extract_empty_only_if_no_text (d : Document)
    (h : extractJobDescription d = []) :
    collapseWhitespace d.body.innerText = [] := by
  cases hsel : trySelectors d KNOWN_SELECTORS with
  | some t =>
    rcases trySelectors_some_shape hsel with ⟨el, hshape, hlen⟩
    have hx := extract_of_selectors hsel
    rw [h] at hx
    rw [← hx] at hlen
    exact absurd hlen (by decide)
  | none =>
    cases hbest : heuristicBest d with
    | mk fst snd =>
      cases fst with
      | some el =>
        by_cases hge : MIN_LENGTH ≤ snd
        · have hx := extract_of_heuristic hsel hbest hge
          have hsnd : snd = normLen el := heuristicBest_snd_eq hbest
          rw [h] at hx
          rw [hsnd, normLen, ← hx] at hge
          exact absurd hge (by decide)
        · have hlt : (heuristicBest d).2 < MIN_LENGTH := by
            rw [hbest]
            exact Nat.not_le.mp hge
          have hx := extract_of_lastResort hsel hlt
          rw [h, lastResort] at hx
          rcases List.take_eq_nil_iff.mp hx.symm with h8 | hnil
          · exact absurd h8 (by decide)
          · exact hnil
      | none =>
        have hx := extract_of_lastResort_none hsel (by rw [hbest])
        rw [h, lastResort] at hx
        rcases List.take_eq_nil_iff.mp hx.symm with h8 | hnil
        · exact absurd h8 (by decide)
        · exact hnil

/-- Witness document for C4: a completely empty document. -/
def emptyElem : Elem := .mk ("HTML".toList) [] [] none [] [] [] [] []

def emptyDoc : Document := ⟨emptyElem, emptyElem⟩

theorem extract_empty_only_if_no_text_witness :
    extractJobDescription emptyDoc = [] ∧
    collapseWhitespace emptyDoc.body.innerText = [] :=
  ⟨rfl, extract_empty_only_if_no_text emptyDoc rfl⟩

/-! ## C6: normalization of the final result -/

/-- Did the heuristic tier produce a qualifying winner? -/
def heuristicHit (d : Document) : Bool :=
  match heuristicBest d with
  | (some _, n) => decide (MIN_LENGTH ≤ n)
  | (none, _) => false

/-- Did the extraction reach the last-resort branch? -/
def usedLastResort (d : Document) : Bool :=
  (trySelectors d KNOWN_SELECTORS).isNone && !(heuristicHit d)

theorem take_noLeadingWS {l : List Char} (h : NoLeadingWS l) (n : Nat) :
    NoLeadingWS (l.take n) := by
  intro c hc
  apply h
  rw [List.head?_take] at hc
  split at hc
  · exact absurd hc (by simp)
  · exact hc

theorem lastResort_props (d : Document) :
    '\t' ∉ lastResort d ∧
    ¬ (['\n', '\n', '\n'] <:+: lastResort d) ∧
    NoLeadingWS (lastResort d) ∧
    ((collapseWhitespace d.body.innerText).length ≤ 8000 →
      NoTrailingWS (lastResort d)) := by
  refine ⟨?_, ?_, ?_, ?_⟩
  · intro hm
    exact collapseWhitespace_no_tab d.body.innerText
      (List.Sublist.mem hm (List.take_sublist 8000 _))
  · intro hinf
    exact collapseWhitespace_no_triple d.body.innerText
      (List.IsInfix.trans hinf ( List.IsPrefix.isInfix ( List.take_prefix 8000 _)))
  · exact take_noLeadingWS (collapseWhitespace_noLeadingWS _) 8000
  · intro hle
    rw [lastResort, List.take_of_length_le hle]
    exact collapseWhitespace_noTrailingWS _

/-- C6 amended: every extraction result contains no tab, no run of three
newlines and no leading whitespace; it also has no trailing whitespace
EXCEPT possibly in the last-resort path when the normalized body text
exceeds the 8000-character cap and truncation cuts it mid-text. -/
theorem extract_normalized_amended (d : Document) :
    '\t' ∉ extractJobDescription d ∧
    ¬ (['\n', '\n', '\n'] <:+: extractJobDescription d) ∧
    NoLeadingWS (extractJobDescription d) ∧
    (NoTrailingWS (extractJobDescription d) ∨
      (usedLastResort d = true ∧
        8000 < (collapseWhitespace d.body.innerText).length)) := by
  cases hsel : trySelectors d KNOWN_SELECTORS with
  | some t =>
    rcases trySelectors_some_shape hsel with ⟨el, hshape, _⟩
    rw [extract_of_selectors hsel, hshape]
    exact ⟨collapseWhitespace_no_tab _, collapseWhitespace_no_triple _,
      collapseWhitespace_noLeadingWS _, Or.inl (collapseWhitespace_noTrailingWS _)⟩
  | none =>
    have hlr : extractJobDescription d = lastResort d →
        heuristicHit d = false →
        '\t' ∉ extractJobDescription d ∧
        ¬ (['\n', '\n', '\n'] <:+: extractJobDescription d) ∧
        NoLeadingWS (extractJobDescription d) ∧
        (NoTrailingWS (extractJobDescription d) ∨
          (usedLastResort d = true ∧
            8000 < (collapseWhitespace d.body.innerText).length)) := by
      intro hx hhit
      obtain ⟨p1, p2, p3, p4⟩ := lastResort_props d
      rw [hx]
      refine ⟨p1, p2, p3, ?_⟩
      by_cases hle : (collapseWhitespace d.body.innerText).length ≤ 8000
      · exact Or.inl (p4 hle)
      · refine Or.inr ⟨?_, Nat.not_le.mp hle⟩
        rw [usedLastResort, hsel, hhit]
        rfl
    cases hbest : heuristicBest d with
    | mk fst snd =>
      cases fst with
      | some el =>
        by_cases hge : MIN_LENGTH ≤ snd
        · rw [extract_of_heuristic hsel hbest hge]
          exact ⟨collapseWhitespace_no_tab _, collapseWhitespace_no_triple _,
            collapseWhitespace_noLeadingWS _, Or.inl (collapseWhitespace_noTrailingWS _)⟩
        · apply hlr
          · exact extract_of_lastResort hsel (by rw [hbest]; exact Nat.not_le.mp hge)
          · unfold heuristicHit
            rw [hbest]
            simp [hge]
      | none =>
        apply hlr
        · exact extract_of_lastResort_none hsel (by rw [hbest])
        · unfold heuristicHit
          rw [hbest]

/-- Body text for the C6 counterexample: 7999 letters, a space, a letter
— already normalized, 8001 characters long, with a space exactly at the
truncation boundary. -/
def textC6 : List Char := List.replicate 7999 'a' ++ [' ', 'b']

def bodyC6 : Elem := .mk ("BODY".toList) [] [] none [] [] textC6 [] []

def docC6 : Document := ⟨.mk ("HTML".toList) [] [] none [] [] [] [] [], bodyC6⟩

theorem textC6_fixed : collapseWhitespace textC6 = textC6 := by
  have hmem : ∀ c : Char, c ∈ textC6 → c = 'a' ∨ c = ' ' ∨ c = 'b' := by
    intro c hc
    rcases List.mem_append.mp hc with h | h
    · exact Or.inl (List.mem_replicate.mp h).2
    · rcases List.mem_cons.mp h with h | h
      · exact Or.inr (Or.inl h)
      · rcases List.mem_cons.mp h with h | h
        · exact Or.inr (Or.inr h)
        · exact absurd h (by simp)
  have hhead : textC6.head? = some 'a' := by
    rw [textC6, show (7999 : Nat) = 7998 + 1 from rfl, List.replicate_succ,
      List.cons_append]
    rfl
  apply collapseWhitespace_of_normalized
  · intro h
    rcases hmem '\r' h with h | h | h <;> exact absurd h (by decide)
  · intro h
    rcases hmem '\t' h with h | h | h <;> exact absurd h (by decide)
  · intro h
    have hc := List.Sublist.count_le ( List.IsInfix.sublist h) ' '
    rw [show List.count ' ' [' ', ' '] = 2 from rfl, textC6, List.count_append,
      List.count_replicate, show List.count ' ' [' ', 'b'] = 1 from rfl,
      show (if ('a' == ' ') then 7999 else 0) = 0 from rfl] at hc
    exact absurd hc (by decide)
  · intro h
    have hn : '\n' ∈ textC6 :=
      List.Sublist.mem (by decide : '\n' ∈ ['\n', '\n', '\n'])
        ( List.IsInfix.sublist h)
    rcases hmem '\n' hn with h | h | h <;> exact absurd h (by decide)
  · intro c hc
    rw [hhead] at hc
    have : c = 'a' := by injection hc with hc; exact hc.symm
    rw [this]
    decide
  · intro c hc
    rw [textC6, List.getLast?_append] at hc
    have : c = 'b' := by
      rw [show ([' ', 'b'].getLast?.or (List.replicate 7999 'a').getLast?) =
        some 'b' from rfl] at hc
      injection hc with hc
      exact hc.symm
    rw [this]
    decide

theorem textC6_take : textC6.take 8000 = List.replicate 7999 'a' ++ [' '] := by
  rw [textC6, List.take_append_eq_append_take,
    List.take_of_length_le (by rw [List.length_replicate]; decide),
    List.length_replicate, show (8000 - 7999 : Nat) = 1 from rfl]
  rfl

/-- C6 counterexample: on `docC6` every tier falls through, the
normalized body text is 8001 characters, and the 8000-character
truncation ends the result on a space — trailing whitespace, refuting
the claim that the extraction result never carries leading or trailing
whitespace even after truncation. -/
theorem extract_trailing_ws_cex :
    (extractJobDescription docC6).getLast? = some ' ' ∧ jsWhitespace ' ' = true := by
  have hx : extractJobDescription docC6 = (collapseWhitespace textC6).take 8000 := rfl
  rw [hx, textC6_fixed, textC6_take]
  exact ⟨List.getLast?_concat _, by decide⟩
